import Mathlib

/-!
# Verification of the wiser indexing core

Shallow embedding of the indexing core of the wiser full-text search
engine (`src/token.c`): the separator predicate, the N-gram splitter,
the Golomb codec, the posting-list codec (raw and Golomb modes), the
persistence bridge, and the posting-list merge.

Modelling conventions:
* C `int` values are modelled as `Nat`; every value manipulated by the
  claims under consideration is non-negative in C, and 32-bit wraparound
  is made explicit (`% 2^32` decomposition) where ints are serialised.
* The byte buffer of the codec is modelled as a `List Bool` of bits in
  stream order: within a byte, bits are MSB-first, exactly the order in
  which `append_buffer_bit` writes them and `read_bit` reads them.  A
  stored blob is a whole number of bytes, so its bit list always has
  length divisible by 8.
* The buffer primitives `append_buffer` / `append_buffer_bit` and the
  database accessors live in files of this repository that are not part
  of the sources at hand (`util.c`, `database.c`); they are modelled
  from the specification (byte appends pad the pending bits with zeros
  to the next byte boundary; bit appends are MSB-first) and the database
  results are passed in as explicit parameters.
* Out-of-bounds reads of the C decoders (undefined behaviour) are
  modelled as `Option.none`.  `print_error` calls are modelled as a
  boolean "error was reported" flag threaded through the decoders.
-/

namespace Wiser

/-- `wiser_is_ignored_char` (token.c:15-40).  The C `switch` returns 1 for
the listed code points and 0 otherwise; a `switch` dispatches on equality
of the scrutinee with each `case` label, modelled as a disjunction of
equality tests over the same labels. -/
def wiser_is_ignored_char (c : Nat) : Bool :=
  (c == 0x20) || (c == 0x0C) || (c == 0x0A) || (c == 0x0D) || (c == 0x09) || (c == 0x0B) ||
  (c == 0x21) || (c == 0x22) || (c == 0x23) || (c == 0x24) || (c == 0x25) || (c == 0x26) ||
  (c == 0x27) || (c == 0x28) || (c == 0x29) || (c == 0x2A) || (c == 0x2B) || (c == 0x2C) ||
  (c == 0x2D) || (c == 0x2E) || (c == 0x2F) ||
  (c == 0x3A) || (c == 0x3B) || (c == 0x3C) || (c == 0x3D) || (c == 0x3E) || (c == 0x3F) ||
  (c == 0x40) ||
  (c == 0x5B) || (c == 0x5C) || (c == 0x5D) || (c == 0x5E) || (c == 0x5F) || (c == 0x60) ||
  (c == 0x7B) || (c == 0x7C) || (c == 0x7D) || (c == 0x7E) ||
  (c == 0x3000) || (c == 0x3001) || (c == 0x3002) ||
  (c == 0xFF08) || (c == 0xFF09) || (c == 0xFF01) || (c == 0xFF0C) ||
  (c == 0xFF1A) || (c == 0xFF1B) || (c == 0xFF1F)

/-- The N-gram splitter loop of `text_to_postings_lists` (token.c:197)
built on `ngram_next` (token.c:51-69), yielding `(start, length, position)`
triples.  The suffix `u` stands for the pointer `t` into the code-point
buffer, `i` is its index in the original buffer, and `pos` is the
`position` counter of `text_to_postings_lists`.  One iteration performs
`ngram_next` (skip ignored characters, then measure a run of at most `n`
non-ignored characters), stops when the measured length is 0, otherwise
yields the triple and restarts one code point after the token start
(`t++` on the out-pointer).  The structural `fuel` bounds the number of
iterations; `text_pairs` supplies `text.length + 1`, which is sufficient
because every iteration strictly advances the start index. -/
def textPairsGo (n : Nat) : Nat → List Nat → Nat → Nat → List (Nat × Nat × Nat)
  | 0, _, _, _ => []
  | fuel + 1, u, i, pos =>
    let u' := u.dropWhile wiser_is_ignored_char
    let start := i + (u.length - u'.length)
    let len := ((u'.take n).takeWhile (fun c => !wiser_is_ignored_char c)).length
    if len = 0 then []
    else (start, len, pos) :: textPairsGo n fuel (u'.drop 1) (start + 1) (pos + 1)

/-- All `(start, length, position)` triples yielded by the splitter loop of
`text_to_postings_lists` over a whole code-point buffer. -/
def text_pairs (n : Nat) (text : List Nat) : List (Nat × Nat × Nat) :=
  textPairsGo n (text.length + 1) text 0 0

/-- The token filter of `text_to_postings_lists` (token.c:199): a yielded
pair is handed to `token_to_postings_list` iff `t_len >= n || document_id`.
`document_id = 0` is the query-mode sentinel. -/
def text_to_postings_pairs (document_id n : Nat) (text : List Nat) :
    List (Nat × Nat × Nat) :=
  (text_pairs n text).filter (fun x => decide (n ≤ x.2.1) || (document_id != 0))

/-- C8: the separator predicate holds for exactly the ASCII whitespace
set, the four ASCII punctuation ranges, and the ten fixed full-width code
points; every other code point is indexable. -/
theorem claim_c8 (c : Nat) :
    wiser_is_ignored_char c = true ↔
      (c = 0x20 ∨ c = 0x09 ∨ c = 0x0A ∨ c = 0x0B ∨ c = 0x0C ∨ c = 0x0D ∨
       (0x21 ≤ c ∧ c ≤ 0x2F) ∨ (0x3A ≤ c ∧ c ≤ 0x40) ∨
       (0x5B ≤ c ∧ c ≤ 0x60) ∨ (0x7B ≤ c ∧ c ≤ 0x7E) ∨
       c = 0x3000 ∨ c = 0x3001 ∨ c = 0x3002 ∨ c = 0xFF01 ∨ c = 0xFF08 ∨
       c = 0xFF09 ∨ c = 0xFF0C ∨ c = 0xFF1A ∨ c = 0xFF1B ∨ c = 0xFF1F) := by
  simp only [wiser_is_ignored_char, Bool.or_eq_true, beq_iff_eq]
  omega

/-- If the splitter measured a non-zero token length, the suffix after the
separator skip is non-empty. -/
theorem textPairs_len_ne_zero {n : Nat} {u' : List Nat}
    (h : ((u'.take n).takeWhile (fun c => !wiser_is_ignored_char c)).length ≠ 0) :
    u' ≠ [] := by
  intro he
  subst he
  simp at h

/-- The measured token length of one splitter step is the length cap `n`
clamped by the run of non-separator code points at the token start. -/
theorem textPairs_len_eq_min (n : Nat) (u' : List Nat) :
    ((u'.take n).takeWhile (fun c => !wiser_is_ignored_char c)).length =
      min n (u'.takeWhile (fun c => !wiser_is_ignored_char c)).length := by
  rw [← List.take_takeWhile, List.length_take]

/-- With `n ≥ 1` the splitter step measures length 0 exactly when the
separator skip consumed the entire remaining buffer: the first code point
after the skip, when it exists, is not a separator. -/
theorem textPairs_len_zero_iff (n : Nat) (u : List Nat) (hn : 1 ≤ n) :
    ((u.dropWhile wiser_is_ignored_char).take n).takeWhile
        (fun c => !wiser_is_ignored_char c) = [] ↔
      u.dropWhile wiser_is_ignored_char = [] := by
  constructor
  · intro h
    by_contra hne
    rcases he : u.dropWhile wiser_is_ignored_char with _ | ⟨c, rest⟩
    · exact hne he
    · have hhead := List.head?_dropWhile_not wiser_is_ignored_char u
      rw [he] at hhead
      simp only [List.head?_cons] at hhead
      rcases n with _ | n
      · omega
      · rw [he] at h
        simp [List.takeWhile_cons, hhead] at h
  · intro h
    rw [h]
    simp

/-- The splitter loop's result does not depend on the fuel, as long as the
fuel exceeds the length of the remaining buffer (each iteration strictly
shrinks the remaining buffer). -/
theorem textPairsGo_fuel (n : Nat) : ∀ (f1 : Nat) (f2 : Nat) (u : List Nat) (i pos : Nat),
    u.length < f1 → u.length < f2 →
    textPairsGo n f1 u i pos = textPairsGo n f2 u i pos := by
  intro f1
  induction f1 with
  | zero => intro f2 u i pos h1 _; exact absurd h1 (Nat.not_lt_zero _)
  | succ f1 ih =>
    intro f2 u i pos h1 h2
    rcases f2 with _ | f2
    · exact absurd h2 (Nat.not_lt_zero _)
    · simp only [textPairsGo]
      by_cases hlen : ((( u.dropWhile wiser_is_ignored_char).take n).takeWhile
          (fun c => !wiser_is_ignored_char c)).length = 0
      · simp [hlen]
      · have hne : u.dropWhile wiser_is_ignored_char ≠ [] := textPairs_len_ne_zero hlen
        have hdroplen : (u.dropWhile wiser_is_ignored_char).length ≤ u.length :=
          (List.dropWhile_suffix wiser_is_ignored_char).length_le
        have hlt : ((u.dropWhile wiser_is_ignored_char).drop 1).length < u.length := by
          rcases he : u.dropWhile wiser_is_ignored_char with _ | ⟨c, rest⟩
          · exact absurd he hne
          · rw [he] at hdroplen
            simp only [List.drop_succ_cons, List.drop_zero]
            simp only [List.length_cons] at hdroplen
            omega
        simp only [if_neg hlen]
        congr 1
        exact ih f2 _ _ _ (by omega) (by omega)

/-- The position counter of the splitter loop increments by exactly one per
yielded triple: the positions of the yields form the arithmetic sequence
starting at the initial counter value. -/
theorem textPairsGo_positions (n : Nat) : ∀ (fuel : Nat) (u : List Nat) (i pos : Nat),
    (textPairsGo n fuel u i pos).map (fun x => x.2.2) =
      List.range' pos (textPairsGo n fuel u i pos).length := by
  intro fuel
  induction fuel with
  | zero => intro u i pos; simp [textPairsGo]
  | succ f ih =>
    intro u i pos
    simp only [textPairsGo]
    by_cases hlen : ((( u.dropWhile wiser_is_ignored_char).take n).takeWhile
        (fun c => !wiser_is_ignored_char c)).length = 0
    · simp [hlen, List.range']
    · simp only [if_neg hlen, List.map_cons, List.length_cons, List.range'_succ]
      rw [ih]

/-- C9: one step of the splitter loop (for `n ≥ 1` and sufficient fuel)
skips separators (advancing the start index by the number of separators
skipped), measures up to `n` consecutive non-separators, yields the
window, restarts exactly one code point after the window start with the
position counter incremented by one, and terminates exactly when the skip
reaches the end of the buffer; and the position counter increments by
exactly 1 for every yielded triple, filtered or not. -/
theorem claim_c9 (n fuel : Nat) (u : List Nat) (i pos : Nat)
    (hn : 1 ≤ n) (hfuel : u.length < fuel) :
    (textPairsGo n fuel u i pos =
      if u.dropWhile wiser_is_ignored_char = [] then []
      else
        (i + (u.length - (u.dropWhile wiser_is_ignored_char).length),
         min n ((u.dropWhile wiser_is_ignored_char).takeWhile
            (fun c => !wiser_is_ignored_char c)).length,
         pos) ::
          textPairsGo n fuel ((u.dropWhile wiser_is_ignored_char).drop 1)
            (i + (u.length - (u.dropWhile wiser_is_ignored_char).length) + 1)
            (pos + 1)) ∧
    (textPairsGo n fuel u i pos).map (fun x => x.2.2) =
      List.range' pos (textPairsGo n fuel u i pos).length := by
  refine ⟨?_, textPairsGo_positions n fuel u i pos⟩
  rcases fuel with _ | f
  · exact absurd hfuel (Nat.not_lt_zero _)
  · simp only [textPairsGo]
    by_cases hempty : u.dropWhile wiser_is_ignored_char = []
    · rw [if_pos hempty]
      have : ((( u.dropWhile wiser_is_ignored_char).take n).takeWhile
          (fun c => !wiser_is_ignored_char c)).length = 0 := by
        rw [hempty]; simp
      simp [this]
    · rw [if_neg hempty]
      have hlen : ((( u.dropWhile wiser_is_ignored_char).take n).takeWhile
          (fun c => !wiser_is_ignored_char c)).length ≠ 0 := by
        intro h0
        exact hempty ((textPairs_len_zero_iff n u hn).mp (List.length_eq_zero.mp h0))
      rw [if_neg hlen]
      have hdroplen : (u.dropWhile wiser_is_ignored_char).length ≤ u.length :=
        (List.dropWhile_suffix wiser_is_ignored_char).length_le
      have hlt : ((u.dropWhile wiser_is_ignored_char).drop 1).length < u.length := by
        rcases he : u.dropWhile wiser_is_ignored_char with _ | ⟨c, rest⟩
        · exact absurd he hempty
        · rw [he] at hdroplen
          simp only [List.drop_succ_cons, List.drop_zero]
          simp only [List.length_cons] at hdroplen
          omega
      rw [textPairs_len_eq_min]
      exact congrArg _ (textPairsGo_fuel n f (f + 1) _ _ _ (by omega) (by omega))

/-- C9 witness: the characterization instantiated on the one-code-point
buffer `[97]` with `n = 2`. -/
theorem claim_c9_witness :
    (1 ≤ 2) ∧ (List.length [97] < 2) ∧
    ((textPairsGo 2 2 [97] 0 0 =
      if List.dropWhile wiser_is_ignored_char [97] = [] then []
      else
        (0 + (List.length [97] - (List.dropWhile wiser_is_ignored_char [97]).length),
         min 2 ((List.dropWhile wiser_is_ignored_char [97]).takeWhile
            (fun c => !wiser_is_ignored_char c)).length,
         0) ::
          textPairsGo 2 2 ((List.dropWhile wiser_is_ignored_char [97]).drop 1)
            (0 + (List.length [97] - (List.dropWhile wiser_is_ignored_char [97]).length) + 1)
            (0 + 1)) ∧
    (textPairsGo 2 2 [97] 0 0).map (fun x => x.2.2) =
      List.range' 0 (textPairsGo 2 2 [97] 0 0).length) :=
  ⟨by decide, by decide, claim_c9 2 2 [97] 0 0 (by decide) (by decide)⟩

/-- C3 counterexample: on the buffer "ab c" (`[97, 98, 32, 99]`) with
`n = 2`, the short tail tokens "b" (position 1) and "c" (position 2) are
*discarded* when `document_id = 0` (query mode) and *emitted* when
`document_id = 1` (index mode) — the opposite of the claim, which says
short tail tokens are emitted in query mode and discarded in index mode. -/
theorem claim_c3_counterexample :
    text_pairs 2 [97, 98, 32, 99] = [(0, 2, 0), (1, 1, 1), (3, 1, 2)] ∧
    text_to_postings_pairs 0 2 [97, 98, 32, 99] = [(0, 2, 0)] ∧
    text_to_postings_pairs 1 2 [97, 98, 32, 99] =
      [(0, 2, 0), (1, 1, 1), (3, 1, 2)] := by
  decide

/-- C3 (amended): a yielded pair shorter than `n` is kept by
`text_to_postings_lists` exactly when `document_id ≠ 0` (index mode); in
query mode (`document_id = 0`, the query sentinel) short tail tokens are
discarded. -/
theorem claim_c3 (document_id n : Nat) (text : List Nat) (x : Nat × Nat × Nat)
    (hmem : x ∈ text_pairs n text) (hshort : x.2.1 < n) :
    x ∈ text_to_postings_pairs document_id n text ↔ document_id ≠ 0 := by
  unfold text_to_postings_pairs
  rw [List.mem_filter]
  constructor
  · rintro ⟨-, hcond⟩
    simp only [Bool.or_eq_true, decide_eq_true_eq, bne_iff_ne, ne_eq] at hcond
    rcases hcond with h | h
    · omega
    · exact h
  · intro h
    refine ⟨hmem, ?_⟩
    simp only [Bool.or_eq_true, bne_iff_ne, ne_eq]
    exact Or.inr h

/-- C3 witness: the short tail pair `(1, 1, 1)` of "ab c" with `n = 2` in
query mode (`document_id = 0`). -/
theorem claim_c3_witness :
    ((1, 1, 1) ∈ text_pairs 2 [97, 98, 32, 99]) ∧ (Prod.snd (Prod.snd (1, 1, 1)) < 2) ∧
    (((1, 1, 1) ∈ text_to_postings_pairs 0 2 [97, 98, 32, 99]) ↔ (0 : Nat) ≠ 0) :=
  ⟨by decide, by decide, claim_c3 0 2 [97, 98, 32, 99] (1, 1, 1) (by decide) (by decide)⟩

/-- A `postings_list` node (declared in postings.h, used throughout
token.c): the document id, the stored occurrence count
(`positions_count`), and the utarray of positions; the intrusive `next`
chain is modelled by `List`. -/
structure postings_list where
  document_id : Nat
  positions_count : Nat
  positions : List Nat
deriving DecidableEq, Repr

/-- An `inverted_index_value` entry (declared in postings.h): token id,
document count, total occurrence count and the postings chain. -/
structure inverted_index_value where
  token_id : Nat
  docs_count : Nat
  positions_count : Nat
  postings : List postings_list
deriving DecidableEq, Repr

/-- MSB-first bits of the `w` low bits of `x`: the C pattern
`for (i = 1 << (w - 1); i; i >>= 1) append_buffer_bit(buf, x & i)`. -/
def bitsOfWidth (x : Nat) : Nat → List Bool
  | 0 => []
  | w + 1 => x.testBit w :: bitsOfWidth x w

/-- The eight bits of one byte, MSB first — the order in which
`append_buffer_bit` fills a byte (mask `0x80` shifting right) and
`read_bit` consumes it. -/
def byteBits (x : Nat) : List Bool := bitsOfWidth x 8

/-- A stored blob (a byte sequence) as its bit stream. -/
def bytesToBits (bs : List Nat) : List Bool := bs.flatMap byteBits

/-- `append_buffer(buf, &n, sizeof(int))` on a byte-aligned buffer: the
four bytes of the 32-bit int in native (here: little-endian) order.
Modelled from the spec: `append_buffer` pads any pending bits with zeros
to the byte boundary and then copies bytes; the codec performs all its
int appends at byte-aligned offsets (after an explicit flush when a bit
section precedes), so the pad is the identity there and the flush is
modelled separately by `pad8`. -/
def intBits (x : Nat) : List Bool :=
  byteBits (x % 256) ++ byteBits (x / 256 % 256) ++
  byteBits (x / 65536 % 256) ++ byteBits (x / 16777216 % 256)

/-- Modelled from the spec: flushing the bit-level buffer
(`append_buffer(buf, NULL, 0)`) pads with zero bits to the next byte
boundary.  The argument is the bit section being closed; it always starts
at a byte-aligned offset, so padding to the boundary of the whole buffer
is padding its own length to a multiple of 8. -/
def pad8 (bs : List Bool) : List Bool :=
  bs ++ List.replicate ((8 - bs.length % 8) % 8) false

/-- `read_bit` (token.c:315-327) on the suffix model: next bit plus the
remaining suffix, or failure (C returns -1) when the stream is exhausted.
The C cursor is a `(byte pointer, bit mask)` pair and the exhaustion test
`*buf >= buf_end` is at byte granularity; a stored blob is a whole number
of bytes, so the test holds exactly when no bits remain. -/
def read_bit : List Bool → Option (Bool × List Bool)
  | [] => none
  | b :: rest => some (b, rest)

/-- The byte realignment of `decode_postings_golomb` (token.c:460, 474):
`if (bit != 0x80) { postings_e++; bit = 0x80; }`.  The whole stream has
length divisible by 8, so the number of bits consumed is congruent mod 8
to the negation of the remaining length, and skipping to the next byte
boundary drops `length % 8` bits of the suffix. -/
def alignByte (bs : List Bool) : List Bool := bs.drop (bs.length % 8)

/-- The unary loop of `golomb_decoding` (token.c:361-363): count one-bits
until a zero bit (consumed) or exhaustion (`read_bit` returns -1, which
`== 1` treats like a terminator without consuming anything). -/
def unaryCount : List Bool → Nat × List Bool
  | [] => (0, [])
  | false :: rest => (0, rest)
  | true :: rest =>
    let qr := unaryCount rest
    (qr.1 + 1, qr.2)

/-- The `b - 1`-bit read loop of `golomb_decoding` (token.c:367-371):
read `k` bits MSB-first into the accumulator `r`; on exhaustion report
"invalid golomb code" (third component) and break with the partial
value. -/
def readBitsPartial : Nat → Nat → List Bool → Nat × List Bool × Bool
  | 0, r, bits => (r, bits, false)
  | _ + 1, r, [] => (r, [], true)
  | k + 1, r, b :: rest => readBitsPartial k (2 * r + b.toNat) rest

/-- The loop of `calc_golomb_params` (token.c:340): from `b = 0`, `l = 1`,
increment `b` and double `l` while `m > l`.  Each iteration at least
increments `l`, so the loop runs fewer than `m` times and structural fuel
`m` is sufficient. -/
def calcBLoop : Nat → Nat → Nat → Nat → Nat × Nat
  | 0, _, b, l => (b, l)
  | fuel + 1, m, b, l => if l < m then calcBLoop fuel m (b + 1) (l * 2) else (b, l)

/-- `calc_golomb_params` (token.c:335-342): `b` is the smallest exponent
with `2^b ≥ m` and `t = 2^b - m`.  The C `assert(m > 0)` is carried as a
precondition by the theorems. -/
def calc_golomb_params (m : Nat) : Nat × Nat :=
  let bl := calcBLoop m m 0 1
  (bl.1, bl.2 - m)

/-- `golomb_encoding` (token.c:394-415): append `n / m` one-bits and a
zero bit (unary code of the quotient); if `m > 1` append the truncated
binary code of `r = n % m` — `r` in `b - 1` bits when `r < t`, else
`r + t` in `b` bits, MSB-first (the C mask loops from `1 << (b-2)` resp.
`1 << (b-1)` down to 1).  The C function appends to `buf`; appending bits
one at a time in stream order is list concatenation. -/
def golomb_encoding (m b t n : Nat) (buf : List Bool) : List Bool :=
  buf ++ (List.replicate (n / m) true ++ [false] ++
    (if 1 < m then
       (if n % m < t then bitsOfWidth (n % m) (b - 1)
        else bitsOfWidth (n % m + t) b)
     else []))

/-- `golomb_decoding` (token.c:354-384): unary-decode the quotient, then
(for `m > 1`) read `b - 1` remainder bits and, when the partial remainder
is at least `t`, one further bit before subtracting `t`.  Returns the
decoded value, the remaining suffix, and whether "invalid golomb code"
was reported (a failed `read_bit` mid-remainder; the C function keeps
going and still returns a value). -/
def golomb_decoding (m b t : Nat) (bits : List Bool) : Nat × List Bool × Bool :=
  let qr := unaryCount bits
  let n := qr.1 * m
  if 1 < m then
    let rbe := readBitsPartial (b - 1) 0 qr.2
    if t ≤ rbe.1 then
      match rbe.2.1 with
      | [] => (n + rbe.1, [], true)
      | z :: rest2 => (n + (2 * rbe.1 + z.toNat - t), rest2, rbe.2.2)
    else (n + rbe.1, rbe.2.1, rbe.2.2)
  else (n, qr.2, false)

/-- Unary round trip: the quotient loop consumes exactly the one-bits and
the terminating zero written by the encoder. -/
theorem unaryCount_encode (q : Nat) (rest : List Bool) :
    unaryCount (List.replicate q true ++ false :: rest) = (q, rest) := by
  induction q with
  | zero => simp [unaryCount]
  | succ k ih => simp [List.replicate_succ, unaryCount, ih]

/-- The value of the low bit as a natural number. -/
theorem toNat_testBit_zero (x : Nat) : (x.testBit 0).toNat = x % 2 := by
  rw [Nat.testBit_to_div_mod]
  rcases Nat.mod_two_eq_zero_or_one x with h | h <;> simp [h]

/-- Fixed-width read-back: reading `w` bits off `bitsOfWidth x w` yields
the `w` low bits of `x` folded onto the accumulator, consumes exactly the
width, and reports no error. -/
theorem readBitsPartial_encode (w : Nat) :
    ∀ (x acc : Nat) (rest : List Bool),
    readBitsPartial w acc (bitsOfWidth x w ++ rest) =
      (acc * 2 ^ w + x % 2 ^ w, rest, false) := by
  induction w with
  | zero => intro x acc rest; simp [readBitsPartial, bitsOfWidth, Nat.mod_one]
  | succ w ih =>
    intro x acc rest
    have h1 : bitsOfWidth x (w + 1) ++ rest = x.testBit w :: (bitsOfWidth x w ++ rest) :=
      rfl
    have h2 : readBitsPartial (w + 1) acc (x.testBit w :: (bitsOfWidth x w ++ rest)) =
        readBitsPartial w (2 * acc + (x.testBit w).toNat) (bitsOfWidth x w ++ rest) :=
      rfl
    rw [h1, h2, ih]
    have hbit : (x.testBit w).toNat = x / 2 ^ w % 2 := by
      rw [Nat.testBit_to_div_mod]
      rcases Nat.mod_two_eq_zero_or_one (x / 2 ^ w) with h | h <;> simp [h]
    have hmod : x % 2 ^ (w + 1) = x % 2 ^ w + 2 ^ w * (x / 2 ^ w % 2) := by
      rw [pow_succ, Nat.mod_mul]
    rw [hbit, hmod, pow_succ]
    ring_nf

/-- Splitting the lowest bit off a fixed-width bit string. -/
theorem bitsOfWidth_snoc (x : Nat) : ∀ (w : Nat),
    bitsOfWidth x (w + 1) = bitsOfWidth (x / 2) w ++ [x.testBit 0] := by
  intro w
  induction w with
  | zero => simp [bitsOfWidth]
  | succ w ih =>
    have hstep : bitsOfWidth x (w + 1 + 1) = x.testBit (w + 1) :: bitsOfWidth x (w + 1) :=
      rfl
    rw [hstep, ih]
    simp [bitsOfWidth, Nat.testBit_div_two]

/-- Characterization of the `calc_golomb_params` loop: on termination `l`
is the power of two reached, it is at least `m`, and it is minimal. -/
theorem calcBLoop_char (m : Nat) : ∀ (fuel b l : Nat),
    1 ≤ l → m ≤ l + fuel → l = 2 ^ b → (b = 0 ∨ 2 ^ (b - 1) < m) →
    (calcBLoop fuel m b l).2 = 2 ^ (calcBLoop fuel m b l).1 ∧
      m ≤ (calcBLoop fuel m b l).2 ∧
      ((calcBLoop fuel m b l).1 = 0 ∨ 2 ^ ((calcBLoop fuel m b l).1 - 1) < m) := by
  intro fuel
  induction fuel with
  | zero =>
    intro b l h1 h2 h3 h4
    simp only [calcBLoop]
    exact ⟨h3, by omega, h4⟩
  | succ fuel ih =>
    intro b l h1 h2 h3 h4
    simp only [calcBLoop]
    by_cases hlm : l < m
    · rw [if_pos hlm]
      exact ih (b + 1) (l * 2) (by omega) (by omega)
        (by rw [pow_succ]; omega) (by right; simpa using h3 ▸ hlm)
    · rw [if_neg hlm]
      exact ⟨h3, by omega, h4⟩

/-- `calc_golomb_params` computes `b` minimal with `2^b ≥ m` and
`t = 2^b - m`. -/
theorem calc_golomb_params_char (m b t : Nat) (_hm : 1 ≤ m)
    (h : calc_golomb_params m = (b, t)) :
    m ≤ 2 ^ b ∧ t + m = 2 ^ b ∧ (b = 0 ∨ 2 ^ (b - 1) < m) := by
  have hc := calcBLoop_char m m 0 1 (by omega) (by omega) (by norm_num) (Or.inl rfl)
  unfold calc_golomb_params at h
  have hb : b = (calcBLoop m m 0 1).1 := by
    have := congrArg Prod.fst h
    simp at this
    omega
  have ht : t = (calcBLoop m m 0 1).2 - m := by
    have := congrArg Prod.snd h
    simp at this
    omega
  subst hb
  subst ht
  refine ⟨by omega, by omega, hc.2.2⟩

/-- Golomb single-value round trip, with the parameters produced by
`calc_golomb_params`: decoding consumes exactly the encoder's output and
reports no error. -/
theorem golomb_round (m b t n : Nat) (rest : List Bool) (hm : 1 ≤ m)
    (hc : calc_golomb_params m = (b, t)) :
    golomb_decoding m b t (golomb_encoding m b t n [] ++ rest) = (n, rest, false) := by
  obtain ⟨hmb, htm, hmin⟩ := calc_golomb_params_char m b t hm hc
  by_cases hm1 : 1 < m
  · have hb1 : 1 ≤ b := by
      by_contra hb0
      have hb0' : b = 0 := by omega
      subst hb0'
      simp at hmb
      omega
    have hrm : n % m < m := Nat.mod_lt _ (by omega)
    have h2b : 2 ^ b = 2 ^ (b - 1) * 2 := by
      rw [← pow_succ]
      congr 1
      omega
    have hfin : n / m * m + n % m = n := by
      rw [Nat.mul_comm]
      exact Nat.div_add_mod n m
    by_cases hrt : n % m < t
    · -- short remainder: t ≥ 1 forces 2^(b-1) coverage of r
      have hblt : 2 ^ (b - 1) < m := by
        rcases hmin with h0 | h
        · omega
        · exact h
      have hr_lt : n % m < 2 ^ (b - 1) := by omega
      have hval : 0 * 2 ^ (b - 1) + n % m % 2 ^ (b - 1) = n % m := by
        rw [Nat.mod_eq_of_lt hr_lt]
        ring
      simp only [golomb_encoding, List.nil_append, if_pos hm1, if_pos hrt,
        List.append_assoc, List.cons_append]
      simp only [golomb_decoding, unaryCount_encode, if_pos hm1, readBitsPartial_encode]
      rw [hval, if_neg (by omega), hfin]
    · -- long remainder: r + t in b bits, top b-1 bits then one more
      have hrtot : n % m + t < 2 ^ b := by omega
      have hsplit := bitsOfWidth_snoc (n % m + t) (b - 1)
      have hbeq : b - 1 + 1 = b := by omega
      rw [hbeq] at hsplit
      have hhalf_lt : (n % m + t) / 2 < 2 ^ (b - 1) := by omega
      have hval : 0 * 2 ^ (b - 1) + (n % m + t) / 2 % 2 ^ (b - 1) = (n % m + t) / 2 := by
        rw [Nat.mod_eq_of_lt hhalf_lt]
        ring
      have hlow : ((n % m + t).testBit 0).toNat = (n % m + t) % 2 :=
        toNat_testBit_zero _
      have hrec : 2 * ((n % m + t) / 2) + (n % m + t) % 2 - t = n % m := by omega
      simp only [golomb_encoding, List.nil_append, if_pos hm1, if_neg hrt]
      rw [hsplit]
      simp only [List.append_assoc, List.cons_append, List.nil_append]
      simp only [golomb_decoding, unaryCount_encode, if_pos hm1, readBitsPartial_encode]
      rw [hval, if_pos (by omega), hlow, hrec, hfin]
  · -- m = 1: pure unary, no remainder
    have hm' : m = 1 := by omega
    subst hm'
    simp only [golomb_encoding, List.nil_append, if_neg hm1, List.append_nil,
      List.append_assoc, List.cons_append]
    simp only [golomb_decoding, unaryCount_encode, if_neg hm1]
    simp [Nat.div_one]

/-- C2: decoding with `golomb_decoding` the bit sequence produced by
`golomb_encoding` for `n`, with the parameters `(m, b, t)` computed by
`calc_golomb_params`, returns exactly `n` (consuming exactly the encoded
bits and reporting no error), for every `m ≥ 1` and every `n ≥ 0`. -/
theorem claim_c2 (m n b t : Nat) (rest : List Bool) (hm : 1 ≤ m)
    (hc : calc_golomb_params m = (b, t)) :
    golomb_decoding m b t (golomb_encoding m b t n [] ++ rest) = (n, rest, false) :=
  golomb_round m b t n rest hm hc

/-- C2 witness: `m = 3`, `n = 7`, parameters `(b, t) = (2, 1)`. -/
theorem claim_c2_witness :
    (1 ≤ 3) ∧ (calc_golomb_params 3 = (2, 1)) ∧
    golomb_decoding 3 2 1 (golomb_encoding 3 2 1 7 [] ++ [true]) = (7, [true], false) :=
  ⟨by decide, by decide, claim_c2 3 7 2 1 [true] (by decide) (by decide)⟩

/-- One byte of the `*((int *)p)` access pattern: 8 bits MSB-first into an
accumulator; fails when the stream is exhausted (the C read would be out
of bounds). -/
def readByteAux : Nat → Nat → List Bool → Option (Nat × List Bool)
  | 0, acc, bits => some (acc, bits)
  | _ + 1, _, [] => none
  | k + 1, acc, b :: rest => readByteAux k (2 * acc + b.toNat) rest

/-- The 32-bit int read `*((int *)postings_e); postings_e += sizeof(int)`:
four bytes in native (little-endian) order, at a byte-aligned position.
Fails when fewer than four bytes remain (out of bounds in C). -/
def read_int (bits : List Bool) : Option (Nat × List Bool) :=
  match readByteAux 8 0 bits with
  | none => none
  | some (b0, r0) =>
    match readByteAux 8 0 r0 with
    | none => none
    | some (b1, r1) =>
      match readByteAux 8 0 r1 with
      | none => none
      | some (b2, r2) =>
        match readByteAux 8 0 r2 with
        | none => none
        | some (b3, r3) => some (b0 + 256 * b1 + 65536 * b2 + 16777216 * b3, r3)

/-- The document-gap loop of `encode_postings_golomb` (token.c:502-509):
for each posting, Golomb-encode `p->document_id - pre_document_id - 1`
(`pre_document_id` starts at 0) and update `pre_document_id`.  Successive
buffer appends become concatenation. -/
def encodeDocGaps (m b t : Nat) : Nat → List postings_list → List Bool
  | _, [] => []
  | pre, p :: rest =>
    golomb_encoding m b t (p.document_id - pre - 1) [] ++
      encodeDocGaps m b t p.document_id rest

/-- The position-gap loop of `encode_postings_golomb` (token.c:522-527):
`gap = *pp - pre_position - 1` with `pre_position` starting at -1.  The
parameter `pre1` carries `pre_position + 1`, keeping the whole loop in
`Nat`: the first gap is the first position itself. -/
def encodePosGaps (mp bp tp : Nat) : Nat → List Nat → List Bool
  | _, [] => []
  | pre1, q :: rest =>
    golomb_encoding mp bp tp (q - pre1) [] ++ encodePosGaps mp bp tp (q + 1) rest

/-- The per-posting positions sections of `encode_postings_golomb`
(token.c:512-530): for each posting append `positions_count`; when
positions are present, append `m_pos = (last + 1) / positions_count`, the
Golomb-coded position gaps, and flush to the byte boundary.
(`p->positions` is a utarray pointer, non-NULL for postings built by this
code, so the guard `p->positions && p->positions_count` is the count
test; `utarray_back` on the non-empty array is its last element.) -/
def encodePosSections : List postings_list → List Bool
  | [] => []
  | p :: rest =>
    intBits p.positions_count ++
      (if p.positions_count ≠ 0 then
        (let mp := (p.positions.getLastD 0 + 1) / p.positions_count
         intBits mp ++
           pad8 (encodePosGaps mp (calc_golomb_params mp).1 (calc_golomb_params mp).2
             0 p.positions))
       else []) ++
      encodePosSections rest

/-- `encode_postings_golomb` (token.c:488-532): the `docs_count` header
(the caller-supplied `postings_len`); when the list is non-empty,
`m_doc = documents_count / postings_len`, the Golomb-coded document-id
gaps and a flush to the byte boundary; then the positions sections. -/
def encode_postings_golomb (documents_count : Nat) (postings : List postings_list)
    (postings_len : Nat) : List Bool :=
  intBits postings_len ++
    (if postings ≠ [] ∧ postings_len ≠ 0 then
      (let m := documents_count / postings_len
       intBits m ++
         pad8 (encodeDocGaps m (calc_golomb_params m).1 (calc_golomb_params m).2
           0 postings))
     else []) ++
    encodePosSections postings

/-- The document-id loop of `decode_postings_golomb` (token.c:447-458):
decode `count` gaps, reconstructing `document_id = pre + gap + 1` with
`pre_document_id` starting at 0.  The C code allocates the
`postings_list` nodes here; their counts and positions are filled by the
second loop, so this loop is modelled as collecting the ids in order.
The third component ORs the reported-error flags. -/
def decodeDocIds (m b t : Nat) : Nat → Nat → List Bool → List Nat × List Bool × Bool
  | 0, _, bits => ([], bits, false)
  | count + 1, pre, bits =>
    let ge := golomb_decoding m b t bits
    let id := pre + ge.1 + 1
    let res := decodeDocIds m b t count id ge.2.1
    (id :: res.1, res.2.1, ge.2.2 || res.2.2)

/-- The position loop of `decode_postings_golomb` (token.c:469-473):
decode `count` gaps, reconstructing `position += gap + 1` with `position`
starting at -1; the parameter `pre1` carries `position + 1`. -/
def decodePositions (mp bp tp : Nat) : Nat → Nat → List Bool → List Nat × List Bool × Bool
  | 0, _, bits => ([], bits, false)
  | count + 1, pre1, bits =>
    let ge := golomb_decoding mp bp tp bits
    let pos := pre1 + ge.1
    let res := decodePositions mp bp tp count (pos + 1) ge.2.1
    (pos :: res.1, res.2.1, ge.2.2 || res.2.2)

/-- The second loop of `decode_postings_golomb` (token.c:461-475): for
each allocated posting read `positions_count` and `m_pos` (both reads
unconditional), decode the positions, and realign to the byte boundary.
`none` models an out-of-bounds int read. -/
def decodePosLoop : List Nat → List Bool → Option (List postings_list × List Bool × Bool)
  | [], bits => some ([], bits, false)
  | id :: ids, bits =>
    match read_int bits with
    | none => none
    | some (pcount, r1) =>
      match read_int r1 with
      | none => none
      | some (mp, r2) =>
        let ge := decodePositions mp (calc_golomb_params mp).1 (calc_golomb_params mp).2
          pcount 0 r2
        match decodePosLoop ids (alignByte ge.2.1) with
        | none => none
        | some (pls, r3, e2) => some (⟨id, pcount, ge.1⟩ :: pls, r3, ge.2.2 || e2)

/-- `decode_postings_golomb` (token.c:425-478) on the bit stream of a
stored blob: read `docs_count` and then `m_doc` — the latter
unconditionally, even when `docs_count = 0` — decode the document-id
gaps, realign to the byte boundary, then run the positions loop.  Returns
the postings, `*postings_len` (the number of entries appended, i.e.
`docs_count` since allocation failure is not modelled), and the OR of the
reported-error flags. -/
def decode_postings_golomb (bits : List Bool) :
    Option (List postings_list × Nat × Bool) :=
  match read_int bits with
  | none => none
  | some (docs_count, r1) =>
    match read_int r1 with
    | none => none
    | some (m, r2) =>
      let de := decodeDocIds m (calc_golomb_params m).1 (calc_golomb_params m).2
        docs_count 0 r2
      match decodePosLoop de.1 (alignByte de.2.1) with
      | none => none
      | some (pls, _, e2) => some (pls, docs_count, de.2.2 || e2)

/-- The positions loop of `decode_postings_none` (token.c:273-276): read
`count` consecutive ints. -/
def readPositions : Nat → List Bool → Option (List Nat × List Bool)
  | 0, bits => some ([], bits)
  | count + 1, bits =>
    match read_int bits with
    | none => none
    | some (x, r) =>
      match readPositions count r with
      | none => none
      | some (xs, r2) => some (x :: xs, r2)

/-- The record loop of `decode_postings_none` (token.c:257-280): while
input remains (`p < pend`), read `document_id`, `positions_count` and
that many positions.  Structural fuel bounds the iterations; each
iteration consumes at least 64 bits, so the caller's fuel (the total bit
length) is sufficient.  Malloc failure (which would skip a record) is not
modelled. -/
def decodeNoneLoop : Nat → List Bool → Option (List postings_list × Nat × Bool)
  | 0, bits => if bits = [] then some ([], 0, false) else none
  | fuel + 1, bits =>
    if bits = [] then some ([], 0, false)
    else
      match read_int bits with
      | none => none
      | some (did, r1) =>
        match read_int r1 with
        | none => none
        | some (pcount, r2) =>
          match readPositions pcount r2 with
          | none => none
          | some (ps, r3) =>
            match decodeNoneLoop fuel r3 with
            | none => none
            | some (pls, len, e) => some (⟨did, pcount, ps⟩ :: pls, len + 1, e)

/-- `decode_postings_none` (token.c:249-282).  The error flag is always
false: this decoder reports nothing. -/
def decode_postings_none (bits : List Bool) : Option (List postings_list × Nat × Bool) :=
  decodeNoneLoop bits.length bits

/-- `encode_postings_none` (token.c:291-306): for each posting append
`document_id`, `positions_count` and the positions, each as a 32-bit int.
All these appends are byte-aligned, so `append_buffer`'s padding is
vacuous. -/
def encode_postings_none : List postings_list → List Bool
  | [] => []
  | p :: rest =>
    intBits p.document_id ++ intBits p.positions_count ++
      p.positions.flatMap intBits ++ encode_postings_none rest

/-- The `compress` environment flag of `wiser_env`. -/
inductive compress_method where
  | compress_none : compress_method
  | compress_golomb : compress_method
deriving DecidableEq, Repr

/-- `decode_postings` (token.c:543-558). -/
def decode_postings (cmp : compress_method) (bits : List Bool) :
    Option (List postings_list × Nat × Bool) :=
  match cmp with
  | .compress_none => decode_postings_none bits
  | .compress_golomb => decode_postings_golomb bits

/-- `encode_postings` (token.c:568-582); `documents_count` stands for the
external `db_get_document_count(env)` (unused in `none` mode, as in C
where it is not even fetched). -/
def encode_postings (cmp : compress_method) (documents_count : Nat)
    (postings : List postings_list) (postings_len : Nat) : List Bool :=
  match cmp with
  | .compress_none => encode_postings_none postings
  | .compress_golomb => encode_postings_golomb documents_count postings postings_len

/-- `fetch_postings` (token.c:593-620), parameterized by the result of the
external `db_get_postings` call (`none` = non-zero rc; otherwise the
stored `docs_count` and the stored blob as a bit stream).  A decode
failure, or a mismatch between the stored `docs_count` and the decoded
entry count, prints "postings list decode error" and returns -1, modelled
as `none`; an empty blob yields the empty list without decoding. -/
def fetch_postings (cmp : compress_method)
    (db : Option (Nat × List Bool)) : Option (List postings_list × Nat) :=
  match db with
  | none => none
  | some (docs_count, blob) =>
    if blob.length ≠ 0 then
      match decode_postings cmp blob with
      | none => none
      | some (pls, decoded_len, _) =>
        if docs_count ≠ decoded_len then none else some (pls, decoded_len)
    else some ([], 0)

/-- `merge_postings` (token.c:632-658): merge two document-id-sorted
chains into one, taking from `pa` on ties
(`pa->document_id <= pb->document_id`). -/
def merge_postings : List postings_list → List postings_list → List postings_list
  | [], pb => pb
  | pa, [] => pa
  | a :: pa, b :: pb =>
    if a.document_id ≤ b.document_id then a :: merge_postings pa (b :: pb)
    else b :: merge_postings (a :: pa) pb

/-- One call of the external `db_update_postings`. -/
structure db_update_call where
  token_id : Nat
  docs_count : Nat
  buf : List Bool
deriving DecidableEq, Repr

/-- `update_postings` (token.c:665-688), parameterized by the
`db_get_postings` result consumed by its `fetch_postings` call.  Returns
the list of `db_update_postings` calls made and whether the
"cannot fetch old postings list" error was logged.  On fetch failure it
logs and returns without touching the store — and without raising: the
function is total and returns normally.  Buffer allocation
(`alloc_buffer`) is assumed to succeed. -/
def update_postings (cmp : compress_method) (documents_count : Nat)
    (db : Option (Nat × List Bool)) (p : inverted_index_value) :
    List db_update_call × Bool :=
  match fetch_postings cmp db with
  | none => ([], true)
  | some (old_postings, old_postings_len) =>
    let merged :=
      if old_postings_len ≠ 0 then
        (merge_postings old_postings p.postings, p.docs_count + old_postings_len)
      else (p.postings, p.docs_count)
    ([⟨p.token_id, merged.2, encode_postings cmp documents_count merged.1 merged.2⟩],
      false)

/-- A legal posting list (the data-model invariants of §3): document ids
strictly ascending — and positive, since document id 0 is the query-mode
sentinel and the Golomb layout prepends a virtual predecessor 0
(`doc_id[-1] = 0`, so non-negative gaps need ids ≥ 1) — and each
posting's positions strictly ascending, non-empty, and consistent with
its stored `positions_count`. -/
def legal_postings (pls : List postings_list) : Prop :=
  List.Chain (fun x y => x.document_id < y.document_id)
      ⟨0, 0, []⟩ pls ∧
  ∀ p ∈ pls, p.positions ≠ [] ∧ List.Chain' (fun x y => x < y) p.positions ∧
    p.positions_count = p.positions.length

/-- All serialised quantities fit a non-negative C `int`. -/
def bounded_postings (documents_count : Nat) (pls : List postings_list) : Prop :=
  documents_count < 2 ^ 31 ∧ pls.length < 2 ^ 31 ∧
  ∀ p ∈ pls, p.document_id < 2 ^ 31 ∧ ∀ q ∈ p.positions, q < 2 ^ 31

/-- `bitsOfWidth` has exactly the requested width. -/
theorem bitsOfWidth_length (x : Nat) : ∀ (w : Nat), (bitsOfWidth x w).length = w := by
  intro w
  induction w with
  | zero => rfl
  | succ w ih => simp [bitsOfWidth, ih]

/-- Serialised ints occupy 32 bits. -/
theorem intBits_length (x : Nat) : (intBits x).length = 32 := by
  simp [intBits, byteBits, bitsOfWidth_length]

/-- The flush pad closes the section to a whole number of bytes. -/
theorem pad8_length_dvd (bs : List Bool) : 8 ∣ (pad8 bs).length := by
  simp only [pad8, List.length_append, List.length_replicate]
  omega

/-- Every positions section is a whole number of bytes. -/
theorem encodePosSections_length_dvd : ∀ (pls : List postings_list),
    8 ∣ (encodePosSections pls).length := by
  intro pls
  induction pls with
  | nil => simp [encodePosSections]
  | cons p rest ih =>
    simp only [encodePosSections, List.length_append, intBits_length]
    rcases ih with ⟨c, hc⟩
    by_cases h : p.positions_count ≠ 0
    · rw [if_pos h]
      simp only [List.length_append, intBits_length]
      rcases pad8_length_dvd (encodePosGaps ((p.positions.getLastD 0 + 1) / p.positions_count)
        (calc_golomb_params ((p.positions.getLastD 0 + 1) / p.positions_count)).1
        (calc_golomb_params ((p.positions.getLastD 0 + 1) / p.positions_count)).2
        0 p.positions) with ⟨d, hd⟩
      exact ⟨4 + (4 + d) + c, by omega⟩
    · rw [if_neg h]
      exact ⟨4 + c, by simp; omega⟩

/-- Byte read-back: reading `w` bits off `bitsOfWidth x w` succeeds and
folds the `w` low bits of `x` onto the accumulator. -/
theorem readByteAux_encode (w : Nat) :
    ∀ (x acc : Nat) (rest : List Bool),
    readByteAux w acc (bitsOfWidth x w ++ rest) =
      some (acc * 2 ^ w + x % 2 ^ w, rest) := by
  induction w with
  | zero => intro x acc rest; simp [readByteAux, bitsOfWidth, Nat.mod_one]
  | succ w ih =>
    intro x acc rest
    have h1 : bitsOfWidth x (w + 1) ++ rest = x.testBit w :: (bitsOfWidth x w ++ rest) :=
      rfl
    have h2 : readByteAux (w + 1) acc (x.testBit w :: (bitsOfWidth x w ++ rest)) =
        readByteAux w (2 * acc + (x.testBit w).toNat) (bitsOfWidth x w ++ rest) :=
      rfl
    rw [h1, h2, ih]
    have hbit : (x.testBit w).toNat = x / 2 ^ w % 2 := by
      rw [Nat.testBit_to_div_mod]
      rcases Nat.mod_two_eq_zero_or_one (x / 2 ^ w) with h | h <;> simp [h]
    have hmod : x % 2 ^ (w + 1) = x % 2 ^ w + 2 ^ w * (x / 2 ^ w % 2) := by
      rw [pow_succ, Nat.mod_mul]
    rw [hbit, hmod, pow_succ]
    ring_nf

/-- Int read-back: a 32-bit little-endian int written by `intBits` is read
back exactly, for values below `2^32`. -/
theorem read_int_encode (x : Nat) (rest : List Bool) (hx : x < 2 ^ 32) :
    read_int (intBits x ++ rest) = some (x, rest) := by
  have h0 := readByteAux_encode 8 (x % 256) 0
    (byteBits (x / 256 % 256) ++ byteBits (x / 65536 % 256) ++
      byteBits (x / 16777216 % 256) ++ rest)
  have h1 := readByteAux_encode 8 (x / 256 % 256) 0
    (byteBits (x / 65536 % 256) ++ byteBits (x / 16777216 % 256) ++ rest)
  have h2 := readByteAux_encode 8 (x / 65536 % 256) 0
    (byteBits (x / 16777216 % 256) ++ rest)
  have h3 := readByteAux_encode 8 (x / 16777216 % 256) 0 rest
  simp only [read_int, intBits, byteBits, List.append_assoc] at h0 h1 h2 h3 ⊢
  rw [h0]
  simp only [Nat.zero_mul, Nat.zero_add]
  rw [h1]
  simp only [Nat.zero_mul, Nat.zero_add]
  rw [h2]
  simp only [Nat.zero_mul, Nat.zero_add]
  rw [h3]
  simp only [Nat.zero_mul, Nat.zero_add, Option.some.injEq, Prod.mk.injEq]
  exact ⟨by omega, trivial⟩

/-- Realignment after a flushed bit section: dropping to the next byte
boundary removes exactly the zero pad (the remaining stream after the pad
is whole bytes). -/
theorem alignByte_replicate (k : Nat) (tail : List Bool) (hk : k < 8)
    (ht : 8 ∣ tail.length) : alignByte (List.replicate k false ++ tail) = tail := by
  have hlen : (List.replicate k false ++ tail).length % 8 = k := by
    simp only [List.length_append, List.length_replicate]
    omega
  rw [alignByte, hlen]
  have hrep : k = (List.replicate k false).length := by simp
  nth_rewrite 1 [hrep]
  rw [List.drop_left]

/-- Document-id loop round trip: decoding the encoder's gap stream from
the same `pre_document_id` recovers exactly the document ids, consumes
exactly the gap bits, and reports no error.  The chain hypothesis is the
strict ascent of the ids from the starting `pre_document_id`. -/
theorem decodeDocIds_round (m b t : Nat) (hm : 1 ≤ m)
    (hc : calc_golomb_params m = (b, t)) :
    ∀ (pls : List postings_list) (pre : Nat) (rest : List Bool),
    List.Chain (fun x y => x < y) pre (pls.map postings_list.document_id) →
    decodeDocIds m b t pls.length pre (encodeDocGaps m b t pre pls ++ rest) =
      (pls.map postings_list.document_id, rest, false) := by
  intro pls
  induction pls with
  | nil => intro pre rest _; simp [encodeDocGaps, decodeDocIds]
  | cons p rest' ih =>
    intro pre rest hchain
    simp only [List.map_cons, List.chain_cons] at hchain
    obtain ⟨hlt, hchain'⟩ := hchain
    simp only [List.length_cons, decodeDocIds, encodeDocGaps, List.append_assoc]
    have hg := golomb_round m b t (p.document_id - pre - 1)
      (encodeDocGaps m b t p.document_id rest' ++ rest) hm hc
    simp only [hg]
    have hid : pre + (p.document_id - pre - 1) + 1 = p.document_id := by omega
    rw [hid]
    have hrec := ih p.document_id rest hchain'
    simp only [hrec]
    simp

/-- Position loop round trip: decoding the encoder's gap stream from the
same `pre_position + 1` recovers exactly the positions.  `hhead` says the
first position (if any) is at least the carried `pre_position + 1`. -/
theorem decodePositions_round (mp bp tp : Nat) (hm : 1 ≤ mp)
    (hc : calc_golomb_params mp = (bp, tp)) :
    ∀ (ps : List Nat) (pre1 : Nat) (rest : List Bool),
    (∀ y ∈ ps.head?, pre1 ≤ y) →
    List.Chain' (fun x y => x < y) ps →
    decodePositions mp bp tp ps.length pre1 (encodePosGaps mp bp tp pre1 ps ++ rest) =
      (ps, rest, false) := by
  intro ps
  induction ps with
  | nil => intro pre1 rest _ _; simp [encodePosGaps, decodePositions]
  | cons q ps' ih =>
    intro pre1 rest hhead hchain
    have hq : pre1 ≤ q := hhead q rfl
    obtain ⟨hh', hc'⟩ := List.chain'_cons'.mp hchain
    simp only [List.length_cons, decodePositions, encodePosGaps, List.append_assoc]
    have hg := golomb_round mp bp tp (q - pre1)
      (encodePosGaps mp bp tp (q + 1) ps' ++ rest) hm hc
    simp only [hg]
    have hpos : pre1 + (q - pre1) = q := by omega
    rw [hpos]
    have hrec := ih (q + 1) rest (fun y hy => by have := hh' y hy; omega) hc'
    simp only [hrec]
    simp

/-- A strictly ascending chain of naturals starting above `pre` reaches at
least `pre + length` at its last element. -/
theorem chain_lt_getLastD (pre : Nat) : ∀ (ps : List Nat),
    List.Chain (fun x y => x < y) pre ps →
    pre + ps.length ≤ ps.getLastD pre := by
  intro ps
  induction ps generalizing pre with
  | nil => intro _; simp
  | cons q ps' ih =>
    intro hchain
    rw [List.chain_cons] at hchain
    obtain ⟨h1, h2⟩ := hchain
    have := ih q h2
    rw [List.getLastD_cons]
    simp only [List.length_cons]
    omega

/-- A non-empty strictly ascending positions array has its length bounded
by `last + 1` — hence `m_pos = (last + 1) / positions_count ≥ 1`. -/
theorem chain'_length_le_getLastD (ps : List Nat)
    (hchain : List.Chain' (fun x y => x < y) ps) (hne : ps ≠ []) :
    ps.length ≤ ps.getLastD 0 + 1 := by
  rcases ps with _ | ⟨q, ps'⟩
  · exact absurd rfl hne
  · have hch : List.Chain (fun x y => x < y) q ps' := hchain
    rw [List.getLastD_cons]
    rcases Nat.eq_zero_or_pos q with h0 | hq
    · subst h0
      have := chain_lt_getLastD 0 ps' hch
      simp only [List.length_cons]
      omega
    · have h1 : List.Chain (fun x y => x < y) (q - 1) (q :: ps') := by
        rw [List.chain_cons]
        exact ⟨by omega, hch⟩
      have := chain_lt_getLastD (q - 1) (q :: ps') h1
      rw [List.getLastD_cons] at this
      simp only [List.length_cons] at this ⊢
      omega

/-- `getLastD` of a non-empty list is an element of it. -/
theorem getLastD_mem : ∀ (ps : List Nat) (d : Nat), ps ≠ [] → ps.getLastD d ∈ ps := by
  intro ps
  induction ps with
  | nil => intro d h; exact absurd rfl h
  | cons q ps' ih =>
    intro d _
    rw [List.getLastD_cons]
    rcases he : ps' with _ | ⟨r, tl⟩
    · simp
    · rw [← he]
      have hmem := ih q (by rw [he]; exact List.cons_ne_nil r tl)
      exact List.mem_cons_of_mem q hmem

/-- Positions-section round trip: decoding the encoder's per-posting
sections against the decoded document ids rebuilds exactly the original
postings, consumes exactly the sections, and reports no error. -/
theorem decodePosLoop_round :
    ∀ (pls : List postings_list) (rest : List Bool),
    (∀ p ∈ pls, p.positions ≠ [] ∧ List.Chain' (fun x y => x < y) p.positions ∧
      p.positions_count = p.positions.length ∧ ∀ q ∈ p.positions, q < 2 ^ 31) →
    8 ∣ rest.length →
    decodePosLoop (pls.map postings_list.document_id) (encodePosSections pls ++ rest) =
      some (pls, rest, false) := by
  intro pls
  induction pls with
  | nil => intro rest _ _; simp [encodePosSections, decodePosLoop]
  | cons p rest' ih =>
    intro rest hprops hrest
    obtain ⟨hpne, hpchain, hpcnt, hpbound⟩ := hprops p (List.mem_cons_self p rest')
    have hprops' : ∀ x ∈ rest', x.positions ≠ [] ∧
        List.Chain' (fun x y => x < y) x.positions ∧
        x.positions_count = x.positions.length ∧ ∀ q ∈ x.positions, q < 2 ^ 31 :=
      fun x hx => hprops x (List.mem_cons_of_mem p hx)
    have hcnt_pos : 0 < p.positions_count := by
      rw [hpcnt]
      exact List.length_pos.mpr hpne
    have hlast : p.positions.getLastD 0 < 2 ^ 31 := hpbound _ (getLastD_mem _ 0 hpne)
    have hlen_le : p.positions.length ≤ p.positions.getLastD 0 + 1 :=
      chain'_length_le_getLastD _ hpchain hpne
    have hcnt32 : p.positions_count < 2 ^ 32 := by omega
    simp only [List.map_cons, decodePosLoop, encodePosSections, pad8, List.append_assoc]
    rw [if_pos (by omega : p.positions_count ≠ 0)]
    generalize hmp : (p.positions.getLastD 0 + 1) / p.positions_count = mp
    have hmp1 : 1 ≤ mp := by
      rw [← hmp, Nat.one_le_div_iff hcnt_pos]
      omega
    have hmp32 : mp < 2 ^ 32 := by
      rw [← hmp]
      have := Nat.div_le_self (p.positions.getLastD 0 + 1) p.positions_count
      omega
    obtain ⟨bp, tp, hbt⟩ : ∃ bp tp, calc_golomb_params mp = (bp, tp) := ⟨_, _, rfl⟩
    simp only [hbt]
    simp only [read_int_encode, hcnt32, hmp32]
    simp only [List.append_assoc]
    simp only [read_int_encode mp _ hmp32]
    simp only [hbt]
    have h3 := decodePositions_round mp bp tp hmp1 hbt p.positions 0
      (List.replicate ((8 - (encodePosGaps mp bp tp 0 p.positions).length % 8) % 8) false ++
        (encodePosSections rest' ++ rest))
      (fun y _ => Nat.zero_le y) hpchain
    rw [← hpcnt] at h3
    simp only [h3]
    have halign := alignByte_replicate
      ((8 - (encodePosGaps mp bp tp 0 p.positions).length % 8) % 8)
      (encodePosSections rest' ++ rest) (by omega)
      (by
        simp only [List.length_append]
        exact Nat.dvd_add (encodePosSections_length_dvd rest') hrest)
    rw [halign]
    simp only [ih rest hprops' hrest]
    simp

/-- Golomb-mode round trip for a non-empty, legal, bounded posting list
indexed in a corpus of at least `pls.length` documents. -/
theorem decode_encode_golomb (documents_count : Nat) (pls : List postings_list)
    (hleg : legal_postings pls) (hbound : bounded_postings documents_count pls)
    (hdc : pls.length ≤ documents_count) (hne : pls ≠ []) :
    decode_postings_golomb (encode_postings_golomb documents_count pls pls.length) =
      some (pls, pls.length, false) := by
  obtain ⟨hchain, hpos⟩ := hleg
  obtain ⟨hdc31, hlen31, hpb⟩ := hbound
  have hlen_pos : 0 < pls.length := List.length_pos.mpr hne
  have hlen32 : pls.length < 2 ^ 32 := by omega
  have hm1 : 1 ≤ documents_count / pls.length := by
    rw [Nat.one_le_div_iff hlen_pos]
    exact hdc
  have hm32 : documents_count / pls.length < 2 ^ 32 := by
    have := Nat.div_le_self documents_count pls.length
    omega
  simp only [decode_postings_golomb, encode_postings_golomb, pad8, List.append_assoc]
  rw [if_pos (⟨hne, by omega⟩ : pls ≠ [] ∧ pls.length ≠ 0)]
  generalize hmdef : documents_count / pls.length = m
  have hm1' : 1 ≤ m := hmdef ▸ hm1
  have hm32' : m < 2 ^ 32 := hmdef ▸ hm32
  obtain ⟨b, t, hbt⟩ : ∃ b t, calc_golomb_params m = (b, t) := ⟨_, _, rfl⟩
  simp only [hbt]
  simp only [read_int_encode, hlen32, hm32']
  simp only [List.append_assoc]
  simp only [read_int_encode m _ hm32']
  simp only [hbt]
  have hchain' : List.Chain (fun x y => x < y) 0 (pls.map postings_list.document_id) :=
    (List.chain_map postings_list.document_id).mpr hchain
  have hdocs := decodeDocIds_round m b t hm1' hbt pls 0
    (List.replicate ((8 - (encodeDocGaps m b t 0 pls).length % 8) % 8) false ++
      encodePosSections pls)
    hchain'
  simp only [hdocs]
  have halign := alignByte_replicate
    ((8 - (encodeDocGaps m b t 0 pls).length % 8) % 8)
    (encodePosSections pls) (by omega) (encodePosSections_length_dvd pls)
  rw [halign]
  have hprops : ∀ p ∈ pls, p.positions ≠ [] ∧
      List.Chain' (fun x y => x < y) p.positions ∧
      p.positions_count = p.positions.length ∧ ∀ q ∈ p.positions, q < 2 ^ 31 := by
    intro p hp
    obtain ⟨h1, h2, h3⟩ := hpos p hp
    exact ⟨h1, h2, h3, (hpb p hp).2⟩
  have hloop := decodePosLoop_round pls [] hprops (by simp)
  rw [List.append_nil] at hloop
  simp only [hloop]
  simp

/-- Positions read-back in raw mode: `positions_count` consecutive ints. -/
theorem readPositions_encode : ∀ (ps : List Nat) (rest : List Bool),
    (∀ q ∈ ps, q < 2 ^ 31) →
    readPositions ps.length (ps.flatMap intBits ++ rest) = some (ps, rest) := by
  intro ps
  induction ps with
  | nil => intro rest _; simp [readPositions, List.flatMap_nil]
  | cons q ps' ih =>
    intro rest hb
    have hq : q < 2 ^ 31 := hb q (List.mem_cons_self q ps')
    simp only [List.length_cons, readPositions, List.flatMap_cons, List.append_assoc]
    simp only [read_int_encode q _ (by omega : q < 2 ^ 32)]
    simp only [ih rest (fun x hx => hb x (List.mem_cons_of_mem q hx))]

/-- Raw encoding is at least as long (in bits) as the posting list: enough
fuel for the decoding loop. -/
theorem encode_none_length_lb : ∀ (pls : List postings_list),
    pls.length ≤ (encode_postings_none pls).length := by
  intro pls
  induction pls with
  | nil => simp [encode_postings_none]
  | cons p rest' ih =>
    simp only [encode_postings_none, List.length_append, List.length_cons, intBits_length]
    omega

/-- Raw-mode record loop round trip, for any sufficient fuel. -/
theorem decodeNoneLoop_round : ∀ (pls : List postings_list) (fuel : Nat),
    pls.length ≤ fuel →
    (∀ p ∈ pls, p.document_id < 2 ^ 31 ∧ p.positions_count < 2 ^ 32 ∧
      p.positions_count = p.positions.length ∧ ∀ q ∈ p.positions, q < 2 ^ 31) →
    decodeNoneLoop fuel (encode_postings_none pls) = some (pls, pls.length, false) := by
  intro pls
  induction pls with
  | nil =>
    intro fuel _ _
    rcases fuel with _ | fuel <;> simp [encode_postings_none, decodeNoneLoop]
  | cons p rest' ih =>
    intro fuel hfuel hb
    obtain ⟨hdid, hpcnt32, hcntp, hposb⟩ := hb p (List.mem_cons_self p rest')
    rcases fuel with _ | fuel
    · simp at hfuel
    · have hne : encode_postings_none (p :: rest') ≠ [] := by
        intro h
        have hl := congrArg List.length h
        simp only [encode_postings_none, List.length_append, intBits_length,
          List.length_nil] at hl
        omega
      simp only [decodeNoneLoop]
      rw [if_neg hne]
      simp only [encode_postings_none, List.append_assoc]
      simp only [read_int_encode p.document_id _ (by omega : p.document_id < 2 ^ 32)]
      simp only [read_int_encode p.positions_count _ hpcnt32]
      have hrp := readPositions_encode p.positions (encode_postings_none rest') hposb
      rw [← hcntp] at hrp
      simp only [hrp]
      have hrec := ih fuel (by simp only [List.length_cons] at hfuel; omega)
        (fun x hx => hb x (List.mem_cons_of_mem p hx))
      simp only [hrec]
      simp

/-- Raw-mode round trip for a legal, bounded posting list (the empty list
included: the empty blob decodes to the empty list). -/
theorem decode_encode_none (pls : List postings_list)
    (hprops : ∀ p ∈ pls, p.document_id < 2 ^ 31 ∧ p.positions_count < 2 ^ 32 ∧
      p.positions_count = p.positions.length ∧ ∀ q ∈ p.positions, q < 2 ^ 31) :
    decode_postings_none (encode_postings_none pls) = some (pls, pls.length, false) :=
  decodeNoneLoop_round pls (encode_postings_none pls).length
    (encode_none_length_lb pls) hprops

/-- C1 (amended): for every legal posting list (document ids strictly
ascending and positive, positions strictly ascending, non-empty and
consistent with their counts), bounded by the C int range, with
`total_documents_in_corpus ≥ docs_count`, and — in golomb mode —
non-empty, decoding the blob produced by `encode_postings` with the same
mode yields the same posting list: same ids, same positions, same entry
count (and no decode error is reported).  The golomb encoding of the
empty list cannot be decoded (see the counterexample and C10): its blob
carries no `m_doc` field, which the decoder reads unconditionally. -/
theorem claim_c1 (cmp : compress_method) (documents_count : Nat)
    (pls : List postings_list)
    (hleg : legal_postings pls) (hbound : bounded_postings documents_count pls)
    (hdc : pls.length ≤ documents_count)
    (hne : cmp = compress_method.compress_golomb → pls ≠ []) :
    decode_postings cmp (encode_postings cmp documents_count pls pls.length) =
      some (pls, pls.length, false) := by
  cases cmp with
  | compress_none =>
    have hprops : ∀ p ∈ pls, p.document_id < 2 ^ 31 ∧ p.positions_count < 2 ^ 32 ∧
        p.positions_count = p.positions.length ∧ ∀ q ∈ p.positions, q < 2 ^ 31 := by
      intro p hp
      obtain ⟨h1, h2, h3⟩ := hleg.2 p hp
      obtain ⟨hd, hq⟩ := hbound.2.2 p hp
      have hlast := hq _ (getLastD_mem _ 0 h1)
      have hll := chain'_length_le_getLastD _ h2 h1
      exact ⟨hd, by omega, h3, hq⟩
    exact decode_encode_none pls hprops
  | compress_golomb =>
    exact decode_encode_golomb documents_count pls hleg hbound hdc (hne rfl)

/-- C1 counterexample: the empty posting list is legal and bounded, yet in
golomb mode `decode(encode([]))` fails — the encoder writes only the
4-byte `docs_count` header while the decoder unconditionally reads
`m_doc` beyond it — instead of returning the empty list. -/
theorem claim_c1_counterexample :
    legal_postings [] ∧ bounded_postings 1 [] ∧
    List.length ([] : List postings_list) ≤ 1 ∧
    decode_postings compress_method.compress_golomb
      (encode_postings compress_method.compress_golomb 1 [] 0) = none := by
  refine ⟨by simp [legal_postings], by simp [bounded_postings], by decide, by decide⟩

/-- The spec scenario-3 posting list `[(1, [0, 4]), (3, [7])]`. -/
def c1pl : List postings_list := [⟨1, 2, [0, 4]⟩, ⟨3, 1, [7]⟩]

/-- C1 witness: golomb round trip of the scenario-3 list with a corpus of
10 documents. -/
theorem claim_c1_witness :
    legal_postings c1pl ∧ bounded_postings 10 c1pl ∧ c1pl.length ≤ 10 ∧
    (compress_method.compress_golomb = compress_method.compress_golomb → c1pl ≠ []) ∧
    decode_postings compress_method.compress_golomb
        (encode_postings compress_method.compress_golomb 10 c1pl c1pl.length) =
      some (c1pl, c1pl.length, false) :=
  ⟨by simp [legal_postings, c1pl, List.chain_cons, List.chain'_cons],
    by simp [bounded_postings, c1pl], by decide, fun _ => by decide,
    claim_c1 compress_method.compress_golomb 10 c1pl
      (by simp [legal_postings, c1pl, List.chain_cons, List.chain'_cons])
      (by simp [bounded_postings, c1pl]) (by decide) (fun _ => by decide)⟩

/-- C10: `encode_postings_golomb` on the empty posting list writes only
the 4-byte `docs_count` header (value 0) — no `m_doc` field — while
`decode_postings_golomb` reads `m_doc` unconditionally after the header;
decoding that exact 4-byte blob therefore reads past the end of the input
and fails (the `m_doc` read is in bounds only when `docs_count ≥ 1`, when
the encoder wrote the field). -/
theorem claim_c10 (documents_count : Nat) :
    encode_postings_golomb documents_count [] 0 = intBits 0 ∧
    (intBits 0).length = 32 ∧
    decode_postings_golomb (intBits 0) = none := by
  refine ⟨?_, intBits_length 0, by decide⟩
  simp [encode_postings_golomb, encodePosSections]

/-- A Golomb blob truncated mid unary code: one posting with document id
1 (`docs_count = 1`, `m_doc = 1`, gap byte `0x00`), two positions with
`m_pos = 2`, whose gap section `0x3F` encodes the first position and then
ends in all one-bits with no terminating zero. -/
def c5blob : List Bool :=
  bytesToBits [1, 0, 0, 0, 1, 0, 0, 0, 0, 2, 0, 0, 0, 2, 0, 0, 0, 63]

/-- C5 counterexample: decoding the truncated blob `c5blob` does *not*
fail and does *not* leave the output empty — it returns success with the
single (garbage-position) posting `(1, [0, 13])` decoded so far. -/
theorem claim_c5_counterexample :
    decode_postings_golomb c5blob = some ([⟨1, 2, [0, 13]⟩], 1, true) ∧
    ([⟨1, 2, [0, 13]⟩] : List postings_list) ≠ [] := by
  exact ⟨by decide, by decide⟩

/-- C5 (amended): when the bit stream is exhausted mid unary code,
`read_bit` returns -1, which the unary loop of `golomb_decoding` treats
as a terminating zero (exhaustion on a pure one-bit tail yields the count
of those one-bits); a subsequent remainder read past the end reports
"invalid golomb code" (the error flag is true), but the decode still
returns success with all `docs_count` entries, the output is not left
empty, and `fetch_postings` accepts the blob when the stored `docs_count`
matches. -/
theorem claim_c5_thm :
    (∀ q : Nat, unaryCount (List.replicate q true) = (q, [])) ∧
    decode_postings_golomb c5blob = some ([⟨1, 2, [0, 13]⟩], 1, true) ∧
    ([⟨1, 2, [0, 13]⟩] : List postings_list) ≠ [] ∧
    fetch_postings compress_method.compress_golomb (some (1, c5blob)) =
      some ([⟨1, 2, [0, 13]⟩], 1) := by
  refine ⟨?_, by decide, by decide, by decide⟩
  intro q
  induction q with
  | zero => rfl
  | succ k ih => simp [List.replicate_succ, unaryCount, ih]

/-- C6: whenever the stored blob is non-empty and decodes to an entry
count different from the out-of-band `docs_count`, `fetch_postings`
reports "postings list decode error" and returns failure (-1, modelled as
`none`) rather than success. -/
theorem claim_c6 (cmp : compress_method) (docs_count : Nat) (blob : List Bool)
    (pls : List postings_list) (len : Nat) (e : Bool)
    (hne : blob ≠ []) (hdec : decode_postings cmp blob = some (pls, len, e))
    (hmis : docs_count ≠ len) :
    fetch_postings cmp (some (docs_count, blob)) = none := by
  simp only [fetch_postings]
  rw [if_pos (by simpa [List.length_eq_zero] using hne)]
  simp only [hdec]
  rw [if_pos hmis]

/-- A well-formed one-posting golomb blob (`docs_count = 1` embedded,
document id 1 with single position 0). -/
def c6blob : List Bool :=
  bytesToBits [1, 0, 0, 0, 1, 0, 0, 0, 0, 1, 0, 0, 0, 1, 0, 0, 0, 0]

/-- C6 witness: the one-entry blob `c6blob` stored under a `docs_count`
header of 2. -/
theorem claim_c6_witness :
    (c6blob ≠ []) ∧
    decode_postings compress_method.compress_golomb c6blob =
      some ([⟨1, 1, [0]⟩], 1, false) ∧
    ((2 : Nat) ≠ 1) ∧
    fetch_postings compress_method.compress_golomb (some (2, c6blob)) = none :=
  ⟨by decide, by decide, by decide,
    claim_c6 compress_method.compress_golomb 2 c6blob [⟨1, 1, [0]⟩] 1 false
      (by decide) (by decide) (by decide)⟩

/-- C7: if `fetch_postings` fails for the token, `update_postings` logs
the "cannot fetch old postings list" error and makes no
`db_update_postings` call — the persistent store is untouched for that
token — and raises nothing (the model function is total and returns the
empty call list and the logged flag). -/
theorem claim_c7 (cmp : compress_method) (documents_count : Nat)
    (db : Option (Nat × List Bool)) (p : inverted_index_value)
    (hfail : fetch_postings cmp db = none) :
    update_postings cmp documents_count db p = ([], true) := by
  simp only [update_postings, hfail]

/-- C7 witness: a failing `db_get_postings` (non-zero rc). -/
theorem claim_c7_witness :
    fetch_postings compress_method.compress_none none = none ∧
    update_postings compress_method.compress_none 0 none ⟨0, 0, 0, []⟩ = ([], true) :=
  ⟨by decide, claim_c7 compress_method.compress_none 0 none ⟨0, 0, 0, []⟩ (by decide)⟩

/-- `merge_postings` keeps exactly the nodes of both inputs: the result
is a permutation of their concatenation (fuelled strong induction on the
combined length). -/
theorem merge_postings_perm_aux : ∀ (k : Nat) (pa pb : List postings_list),
    pa.length + pb.length ≤ k → List.Perm (merge_postings pa pb) (pa ++ pb) := by
  intro k
  induction k with
  | zero =>
    intro pa pb h
    have hpa : pa = [] := by
      rcases pa with _ | _
      · rfl
      · simp at h
    have hpb : pb = [] := by
      rcases pb with _ | _
      · rfl
      · subst hpa; simp at h
    subst hpa
    subst hpb
    simp [merge_postings]
  | succ k ih =>
    intro pa pb h
    match pa, pb with
    | [], pb => simp [merge_postings]
    | a :: pa, [] => simp [merge_postings]
    | a :: pa, b :: pb =>
      simp only [merge_postings]
      by_cases hle : a.document_id ≤ b.document_id
      · rw [if_pos hle]
        have hp := ih pa (b :: pb) (by
          simp only [List.length_cons] at h ⊢
          omega)
        simpa using hp.cons a
      · rw [if_neg hle]
        have hp := ih (a :: pa) pb (by
          simp only [List.length_cons] at h ⊢
          omega)
        exact (hp.cons b).trans List.perm_middle.symm

/-- `merge_postings pa pb` is a permutation of `pa ++ pb`. -/
theorem merge_postings_perm (pa pb : List postings_list) :
    List.Perm (merge_postings pa pb) (pa ++ pb) :=
  merge_postings_perm_aux (pa.length + pb.length) pa pb le_rfl

/-- Merging two strictly doc-id-sorted lists with disjoint doc-id domains
is strictly doc-id-sorted. -/
theorem merge_postings_sorted_aux : ∀ (k : Nat) (pa pb : List postings_list),
    pa.length + pb.length ≤ k →
    List.Pairwise (fun x y => x.document_id < y.document_id) pa →
    List.Pairwise (fun x y => x.document_id < y.document_id) pb →
    (∀ x ∈ pa, ∀ y ∈ pb, x.document_id ≠ y.document_id) →
    List.Pairwise (fun x y => x.document_id < y.document_id) (merge_postings pa pb) := by
  intro k
  induction k with
  | zero =>
    intro pa pb h ha hb _
    have hpa : pa = [] := by
      rcases pa with _ | _
      · rfl
      · simp at h
    have hpb : pb = [] := by
      rcases pb with _ | _
      · rfl
      · subst hpa; simp at h
    subst hpa
    subst hpb
    simp [merge_postings]
  | succ k ih =>
    intro pa pb h ha hb hdisj
    match pa, pb with
    | [], pb => simpa [merge_postings] using hb
    | a :: pa, [] => simpa [merge_postings] using ha
    | a :: pa, b :: pb =>
      simp only [merge_postings]
      rw [List.pairwise_cons] at ha hb
      obtain ⟨haf, hat⟩ := ha
      obtain ⟨hbf, hbt⟩ := hb
      by_cases hle : a.document_id ≤ b.document_id
      · rw [if_pos hle]
        have hab : a.document_id < b.document_id := by
          have := hdisj a (List.mem_cons_self a pa) b (List.mem_cons_self b pb)
          omega
        rw [List.pairwise_cons]
        constructor
        · intro y hy
          have hy' : y ∈ pa ++ b :: pb :=
            (merge_postings_perm pa (b :: pb)).mem_iff.mp hy
          rcases List.mem_append.mp hy' with hyl | hyr
          · exact haf y hyl
          · rcases List.mem_cons.mp hyr with hyb | hyp
            · subst hyb; exact hab
            · exact lt_trans hab (hbf y hyp)
        · refine ih pa (b :: pb) (by simp only [List.length_cons] at h ⊢; omega)
            hat (List.pairwise_cons.mpr ⟨hbf, hbt⟩) ?_
          intro x hx y hy
          exact hdisj x (List.mem_cons_of_mem a hx) y hy
      · rw [if_neg hle]
        have hba : b.document_id < a.document_id := by omega
        rw [List.pairwise_cons]
        constructor
        · intro y hy
          have hy' : y ∈ (a :: pa) ++ pb :=
            (merge_postings_perm (a :: pa) pb).mem_iff.mp hy
          rcases List.mem_append.mp hy' with hyl | hyr
          · rcases List.mem_cons.mp hyl with hya | hyp
            · subst hya; exact hba
            · exact lt_trans hba (haf y hyp)
          · exact hbf y hyr
        · refine ih (a :: pa) pb (by simp only [List.length_cons] at h ⊢; omega)
            (List.pairwise_cons.mpr ⟨haf, hat⟩) hbt ?_
          intro x hx y hy
          exact hdisj x hx y (List.mem_cons_of_mem b hy)

/-- C4: for non-empty posting lists `a` and `b`, each strictly ascending
by document id and with disjoint document-id domains, `merge_postings`
returns a list that is strictly ascending by document id and whose
entries are exactly the union of the entries of `a` and `b` — a
permutation of `a ++ b`, so each entry (positions included) is unchanged;
together with sortedness this is `sort(a ∪ b)` by document id. -/
theorem claim_c4 (pa pb : List postings_list)
    (_hna : pa ≠ []) (_hnb : pb ≠ [])
    (ha : List.Pairwise (fun x y => x.document_id < y.document_id) pa)
    (hb : List.Pairwise (fun x y => x.document_id < y.document_id) pb)
    (hdisj : ∀ x ∈ pa, ∀ y ∈ pb, x.document_id ≠ y.document_id) :
    List.Pairwise (fun x y => x.document_id < y.document_id) (merge_postings pa pb) ∧
    List.Perm (merge_postings pa pb) (pa ++ pb) :=
  ⟨merge_postings_sorted_aux (pa.length + pb.length) pa pb le_rfl ha hb hdisj,
    merge_postings_perm pa pb⟩

/-- C4 witness: the spec scenario-4 merge of the persistent list
`[(1, [0]), (5, [2])]` with the transient list `[(3, [1])]`. -/
theorem claim_c4_witness :
    (([⟨1, 1, [0]⟩, ⟨5, 1, [2]⟩] : List postings_list) ≠ []) ∧
    (([⟨3, 1, [1]⟩] : List postings_list) ≠ []) ∧
    List.Pairwise (fun x y => x.document_id < y.document_id)
      ([⟨1, 1, [0]⟩, ⟨5, 1, [2]⟩] : List postings_list) ∧
    List.Pairwise (fun x y => x.document_id < y.document_id)
      ([⟨3, 1, [1]⟩] : List postings_list) ∧
    (∀ x ∈ ([⟨1, 1, [0]⟩, ⟨5, 1, [2]⟩] : List postings_list),
      ∀ y ∈ ([⟨3, 1, [1]⟩] : List postings_list),
      x.document_id ≠ y.document_id) ∧
    (List.Pairwise (fun x y => x.document_id < y.document_id)
        (merge_postings [⟨1, 1, [0]⟩, ⟨5, 1, [2]⟩] [⟨3, 1, [1]⟩]) ∧
      List.Perm (merge_postings [⟨1, 1, [0]⟩, ⟨5, 1, [2]⟩] [⟨3, 1, [1]⟩])
        ([⟨1, 1, [0]⟩, ⟨5, 1, [2]⟩] ++ [⟨3, 1, [1]⟩])) :=
  ⟨by decide, by decide, by decide, by decide, by decide,
    claim_c4 [⟨1, 1, [0]⟩, ⟨5, 1, [2]⟩] [⟨3, 1, [1]⟩] (by decide) (by decide)
      (by decide) (by decide) (by decide)⟩

end Wiser
